import Mathlib

/-!
Verification of the recurrence engine of the Eisenhower-matrix web client
(`src/App.tsx`).  The engine is pure calendar logic: next-occurrence
calculation (`calculateNextDeadline` and its helpers), specification
validation (`validateRecurrence`), description generation
(`getRecurrenceDescription`) and the form/spec converters
(`buildRecurrenceConfig`, `parseRecurrenceToFormState`).

Embedding conventions
* A JS `Date` produced from a `YYYY-MM-DD` string and serialised back with
  `toISOString().split('T')[0]` is modelled as a plain calendar date
  (`CalDate`, with the 0-based month convention of JS).  The local clock is
  assumed to coincide with UTC, so `getDate`/`setDate`/`getMonth`/... all
  act on that calendar triple.  `setMonth`/`setFullYear`/`setDate` are
  modelled with the normalising (overflow/underflow rolling) semantics of
  the ECMAScript `MakeDay` operation.
* JS numbers are modelled as `Int` where the surrounding code guarantees
  integers (typed `RecurrenceConfig` fields), and as `Rat` in the
  validator, whose input is untrusted JSON from an AI response and may
  contain non-integral numbers.  `NaN`/`Infinity` are outside the model.
* Functions that return ISO date strings in the source return `CalDate`
  here; the serialisation `toISOString().split('T')[0]` is injective and
  order-preserving on valid dates, so nothing is lost.
-/

/-- Gregorian leap-year test (the rule the ECMAScript `Date` arithmetic
implements). -/
def isLeap (y : Int) : Prop :=
  (y % 4 = 0 ∧ ¬ y % 100 = 0) ∨ y % 400 = 0

instance (y : Int) : Decidable (isLeap y) :=
  inferInstanceAs (Decidable (_ ∨ _))

/-- Number of days of month `m` (0-based, JS convention) of year `y`.
The source computes this as `new Date(y, m + 1, 0).getDate()`
(`getDaysInMonth`); this is its closed form. -/
def daysInMonth (y : Int) (m : Nat) : Nat :=
  match m with
  | 1 => if isLeap y then 29 else 28
  | 3 | 5 | 8 | 10 => 30
  | _ => 31

/-- A calendar date, as a JS `Date` holds it: `month` is 0-based
(0 = January), `day` is 1-based. -/
structure CalDate where
  year : Int
  month : Nat
  day : Nat
deriving DecidableEq, Repr

/-- The date triple actually denotes a day of the Gregorian calendar. -/
def CalDate.Valid (d : CalDate) : Prop :=
  d.month ≤ 11 ∧ 1 ≤ d.day ∧ d.day ≤ daysInMonth d.year d.month

instance (d : CalDate) : Decidable d.Valid :=
  inferInstanceAs (Decidable (_ ∧ _ ∧ _))

/-- The calendar day after `d` (`d.setDate(d.getDate() + 1)` for one day). -/
def CalDate.nextDay (d : CalDate) : CalDate :=
  if d.day < daysInMonth d.year d.month then ⟨d.year, d.month, d.day + 1⟩
  else if d.month < 11 then ⟨d.year, d.month + 1, 1⟩
  else ⟨d.year + 1, 0, 1⟩

/-- The calendar day before `d`. -/
def CalDate.prevDay (d : CalDate) : CalDate :=
  if 1 < d.day then ⟨d.year, d.month, d.day - 1⟩
  else if d.month = 0 then ⟨d.year - 1, 11, 31⟩
  else ⟨d.year, d.month - 1, daysInMonth d.year (d.month - 1)⟩

/-- `d` plus `n` days (the effect of `setDate(getDate() + n)` for `n ≥ 0`). -/
def CalDate.addDays (d : CalDate) : Nat → CalDate
  | 0 => d
  | n + 1 => (d.addDays n).nextDay

/-- `d` minus `n` days. -/
def CalDate.subDays (d : CalDate) : Nat → CalDate
  | 0 => d
  | n + 1 => (d.subDays n).prevDay

/-- `setDate(getDate() + n)` for an arbitrary (possibly negative) `n`. -/
def CalDate.addDaysInt (d : CalDate) (n : Int) : CalDate :=
  if 0 ≤ n then d.addDays n.toNat else d.subDays (-n).toNat

/-- JS `setMonth(getMonth() + k)`: months are renormalised into the year
first (ECMAScript `MakeDay`), then a day-of-month that exceeds the target
month's length rolls over into the following month.  Since `day ≤ 31` and
every month has at least 28 days, a single roll step suffices. -/
def CalDate.addMonths (d : CalDate) (k : Int) : CalDate :=
  let t : Int := (d.month : Int) + k
  let y : Int := d.year + t / 12
  let m : Nat := (t % 12).toNat
  if d.day ≤ daysInMonth y m then ⟨y, m, d.day⟩
  else
    if m = 11 then ⟨y + 1, 0, d.day - daysInMonth y m⟩
    else ⟨y, m + 1, d.day - daysInMonth y m⟩

/-- JS `setFullYear(getFullYear() + k)`: same day and month in the target
year, with the single possible overflow (Feb 29 in a non-leap target year)
rolling into the next month. -/
def CalDate.addYears (d : CalDate) (k : Int) : CalDate :=
  let y : Int := d.year + k
  if d.day ≤ daysInMonth y d.month then ⟨y, d.month, d.day⟩
  else
    if d.month = 11 then ⟨y + 1, 0, d.day - daysInMonth y d.month⟩
    else ⟨y, d.month + 1, d.day - daysInMonth y d.month⟩

/-- JS `setDate(n)`: day 1 of the current month plus `n - 1` days (this is
exactly the ECMAScript semantics, including `n ≤ 0` counting backwards from
the end of the previous month). -/
def CalDate.setDateJS (d : CalDate) (n : Int) : CalDate :=
  CalDate.addDaysInt ⟨d.year, d.month, 1⟩ (n - 1)

/-- Sakamoto's day-of-week table (`0 = January`). -/
def monthCode : Nat → Int
  | 0 => 0 | 1 => 3 | 2 => 2 | 3 => 5 | 4 => 0 | 5 => 3
  | 6 => 5 | 7 => 1 | 8 => 4 | 9 => 6 | 10 => 2 | _ => 4

/-- Day of week of a date (`0 = Sunday .. 6 = Saturday`), as JS
`Date.prototype.getDay` returns it; computed by Sakamoto's congruence. -/
def CalDate.dayOfWeek (d : CalDate) : Int :=
  let y : Int := if d.month < 2 then d.year - 1 else d.year
  (y + y / 4 - y / 100 + y / 400 + monthCode d.month + (d.day : Int)) % 7

/-- Dates ordered by their month index in the linear month order;
ties broken by day.  On valid dates this is chronological order. -/
def CalDate.monthLinear (d : CalDate) : Int :=
  d.year * 12 + (d.month : Int)

/-- Strict chronological order on (valid) dates. -/
def CalDate.lt (a b : CalDate) : Prop :=
  a.monthLinear < b.monthLinear ∨ (a.monthLinear = b.monthLinear ∧ a.day < b.day)

instance (a b : CalDate) : Decidable (CalDate.lt a b) :=
  inferInstanceAs (Decidable (_ ∨ _))

/-! ## The recurrence data model (`src/App.tsx`, typed level)

`DayOfWeek = 0 | 1 | ... | 6` is `Fin 7`; `interval` and `monthDay` are
declared `number` in the source and hold integers wherever the typed code
manipulates them. -/

/-- `type LegacyRecurrencePattern = 'daily' | 'weekly' | 'monthly' | 'yearly'` -/
inductive LegacyRecurrencePattern where
  | daily | weekly | monthly | yearly
deriving DecidableEq, Repr

/-- `type RecurrenceUnit = 'day' | 'week' | 'month' | 'year'` -/
inductive RecurrenceUnit where
  | day | week | month | year
deriving DecidableEq, Repr

/-- `interface RecurrenceConfig` -/
structure RecurrenceConfig where
  interval : Int
  unit : RecurrenceUnit
  weekDays : Option (List (Fin 7)) := none
  monthDay : Option Int := none
deriving DecidableEq, Repr

/-- `type TaskRecurrence = LegacyRecurrencePattern | RecurrenceConfig | null`;
the `isLegacyRecurrence` type guard becomes pattern matching. -/
inductive TaskRecurrence where
  | legacy (p : LegacyRecurrencePattern)
  | flexible (c : RecurrenceConfig)
  | none
deriving DecidableEq, Repr

/-- `getDaysInMonth(date)` = `new Date(y, m + 1, 0).getDate()`, the number
of days of `date`'s month. -/
def getDaysInMonth (d : CalDate) : Nat :=
  daysInMonth d.year d.month

/-- `findNextWeekdayOccurrence(baseDate, weekInterval, weekDays)`.
`sortedDays.find(d => d > currentDay)` is `List.find?` in a list sorted
ascending; `sortedDays[0]` is `headI` (the caller guarantees the list is
non-empty). -/
def findNextWeekdayOccurrence (baseDate : CalDate) (weekInterval : Int)
    (weekDays : List (Fin 7)) : CalDate :=
  let sortedDays := List.insertionSort (fun a b => a ≤ b) weekDays
  let currentDay : Int := baseDate.dayOfWeek
  match sortedDays.find? (fun d : Fin 7 => currentDay < ((d : Nat) : Int)) with
  | some d =>
    if weekInterval = 1 then
      baseDate.addDaysInt ((d : Int) - currentDay)
    else
      baseDate.addDaysInt ((7 - currentDay + ((sortedDays.headI : Fin 7) : Int))
        + (weekInterval - 1) * 7)
  | Option.none =>
      baseDate.addDaysInt ((7 - currentDay + ((sortedDays.headI : Fin 7) : Int))
        + (weekInterval - 1) * 7)

/-- `calculateLegacyNextDeadline(baseDate, recurrence)` -/
def calculateLegacyNextDeadline (baseDate : CalDate)
    (recurrence : LegacyRecurrencePattern) : CalDate :=
  match recurrence with
  | .daily => baseDate.addDaysInt 1
  | .weekly => baseDate.addDaysInt 7
  | .monthly => baseDate.addMonths 1
  | .yearly => baseDate.addYears 1

/-- `calculateFlexibleNextDeadline(baseDate, config)`.  Note the order of
operations in the month branch: `setMonth` first (with its overflow
rolling), then the `Math.min(monthDay, getDaysInMonth(nextDate))` clamp
against the month the rolled date landed in. -/
def calculateFlexibleNextDeadline (baseDate : CalDate)
    (config : RecurrenceConfig) : CalDate :=
  match config.unit with
  | .day => baseDate.addDaysInt config.interval
  | .week =>
    if (config.weekDays.getD []).length > 0 then
      findNextWeekdayOccurrence baseDate config.interval (config.weekDays.getD [])
    else
      baseDate.addDaysInt (config.interval * 7)
  | .month =>
    let nextDate := baseDate.addMonths config.interval
    match config.monthDay with
    | some monthDay =>
        nextDate.setDateJS (min monthDay (getDaysInMonth nextDate : Int))
    | Option.none => nextDate
  | .year => baseDate.addYears config.interval

/-- `calculateNextDeadline(currentDeadline, recurrence)`.  The ambient
clock (`new Date()` when no deadline is present) is the explicit `today`
parameter; a `none` recurrence throws
`new Error('Recurrence pattern is required')`. -/
def calculateNextDeadline (today : CalDate) (currentDeadline : Option CalDate)
    (recurrence : TaskRecurrence) : Except String CalDate :=
  match recurrence with
  | .none => .error "Recurrence pattern is required"
  | .legacy p =>
      .ok (calculateLegacyNextDeadline (currentDeadline.getD today) p)
  | .flexible c =>
      .ok (calculateFlexibleNextDeadline (currentDeadline.getD today) c)

/-- `DAY_NAMES[d]` -/
def dayName : Fin 7 → String
  | 0 => "Sun" | 1 => "Mon" | 2 => "Tue" | 3 => "Wed"
  | 4 => "Thu" | 5 => "Fri" | 6 => "Sat"

/-- JS array indexing `l[i]`: `undefined` out of bounds. -/
def jsIndex (l : List String) (i : Int) : Option String :=
  if h : 0 ≤ i ∧ i.toNat < l.length then some (l.get ⟨i.toNat, h.2⟩)
  else Option.none

/-- `getOrdinalSuffix(n)`: `s[(v - 20) % 10] || s[v] || s[0]` with JS `%`
(truncating remainder) and `undefined` for out-of-range indices. -/
def getOrdinalSuffix (n : Int) : String :=
  let s := ["th", "st", "nd", "rd"]
  let v := n.tmod 100
  (((jsIndex s ((v - 20).tmod 10)).orElse (fun _ => jsIndex s v)).getD "th")

/-- `getRecurrenceDescription(recurrence)` -/
def getRecurrenceDescription (recurrence : TaskRecurrence) : String :=
  match recurrence with
  | .none => ""
  | .legacy p =>
    match p with
    | .daily => "Daily" | .weekly => "Weekly"
    | .monthly => "Monthly" | .yearly => "Yearly"
  | .flexible c =>
    let interval := c.interval
    let weekDays := c.weekDays
    let monthDay := c.monthDay
    if c.unit = .week ∧ (weekDays.getD []).length > 0 then
      let ws := weekDays.getD []
      let dayList := String.intercalate ", " (ws.map dayName)
      if ws.length = 5 ∧ (ws.enum.all fun p => (p.2 : Nat) = p.1 + 1) then
        if interval = 1 then "Weekdays"
        else "Every " ++ toString interval ++ " weeks (weekdays)"
      else if ws.length = 2 ∧ ws.contains 0 ∧ ws.contains 6 then
        if interval = 1 then "Weekends"
        else "Every " ++ toString interval ++ " weeks (weekends)"
      else if interval = 1 then "Every " ++ dayList
      else "Every " ++ toString interval ++ " weeks on " ++ dayList
    else if c.unit = .month ∧ monthDay.getD 0 ≠ 0 then
      let md := monthDay.getD 0
      let suffix := getOrdinalSuffix md
      if interval = 1 then toString md ++ suffix ++ " of each month"
      else toString md ++ suffix ++ " every " ++ toString interval ++ " months"
    else if interval = 1 then
      match c.unit with
      | .day => "Daily" | .week => "Weekly" | .month => "Monthly" | .year => "Yearly"
    else if interval = 2 then
      match c.unit with
      | .day => "Every other day" | .week => "Biweekly"
      | .month => "Bimonthly" | .year => "Biannual"
    else
      "Every " ++ toString interval ++ " " ++
        (match c.unit with
         | .day => "days" | .week => "weeks" | .month => "months" | .year => "years")

/-- `preset` field of the form state. -/
inductive RecurrencePreset where
  | daily | weekly | monthly | yearly | custom
deriving DecidableEq, Repr

/-- `interface RecurrenceFormState` (`preset: ... | null` is `Option`). -/
structure RecurrenceFormState where
  enabled : Bool
  preset : Option RecurrencePreset
  interval : Int
  unit : RecurrenceUnit
  weekDays : List (Fin 7)
  monthDay : Option Int
  useSpecificMonthDay : Bool
deriving DecidableEq, Repr

/-- `defaultRecurrenceForm` -/
def defaultRecurrenceForm : RecurrenceFormState :=
  { enabled := false, preset := Option.none, interval := 1, unit := .week,
    weekDays := [], monthDay := Option.none, useSpecificMonthDay := false }

/-- JS truthiness of `formState.monthDay : number | null`:
`null` and `0` are falsy. -/
def monthDayTruthy : Option Int → Bool
  | Option.none => false
  | some n => n ≠ 0

/-- `buildRecurrenceConfig(formState)` -/
def buildRecurrenceConfig (formState : RecurrenceFormState) : TaskRecurrence :=
  if !formState.enabled then .none
  else
    match formState.preset with
    | some .daily => .legacy .daily
    | some .weekly => .legacy .weekly
    | some .monthly => .legacy .monthly
    | some .yearly => .legacy .yearly
    | some .custom | Option.none =>
      .flexible
        { interval := formState.interval
          unit := formState.unit
          weekDays :=
            if formState.unit = .week ∧ formState.weekDays.length > 0 then
              some formState.weekDays
            else Option.none
          monthDay :=
            if formState.unit = .month ∧ formState.useSpecificMonthDay ∧
                monthDayTruthy formState.monthDay then
              formState.monthDay
            else Option.none }

/-- `parseRecurrenceToFormState(recurrence)` -/
def parseRecurrenceToFormState (recurrence : TaskRecurrence) : RecurrenceFormState :=
  match recurrence with
  | .none => defaultRecurrenceForm
  | .legacy p =>
    { enabled := true
      preset := some (match p with
        | .daily => .daily | .weekly => .weekly
        | .monthly => .monthly | .yearly => .yearly)
      interval := 1
      unit := (match p with
        | .daily => .day | .weekly => .week
        | .monthly => .month | .yearly => .year)
      weekDays := []
      monthDay := Option.none
      useSpecificMonthDay := false }
  | .flexible c =>
    { enabled := true
      preset := some .custom
      interval := c.interval
      unit := c.unit
      weekDays := c.weekDays.getD []
      monthDay := c.monthDay
      useSpecificMonthDay := c.monthDay.isSome }

/-! ## The validator (`validateRecurrence` in `src/App.tsx`)

The validator receives an untrusted value parsed from an AI response, so
it is modelled over a deep embedding of JSON-like JS values whose numbers
are rationals.  Its output is a runtime-level recurrence value: the TS
signature promises `TaskRecurrence`, but the casts in the function are
unchecked, so the weekday and month-day fields can in fact hold any
rationals that pass the range filters. -/

/-- A JS value as it can appear in a parsed AI response.  An `obj` carries
just the four properties the validator reads; every other property is
irrelevant to it.  Nested objects are not inspected, so `obj` with all
fields absent also stands for any other object. -/
inductive JSValue where
  | undef
  | null
  | num (q : ℚ)
  | str (s : String)
  | bool (b : Bool)
  | arr (elems : List JSValue)
  | obj (interval unit weekDays monthDay : Option JSValue)

/-- Runtime-level flexible config as the validator can actually produce it
(`interval` is an integer stored in a JS number; `weekDays`/`monthDay`
keep whatever rationals passed the filters). -/
structure RawRecurrenceConfig where
  interval : ℚ
  unit : RecurrenceUnit
  weekDays : Option (List ℚ) := Option.none
  monthDay : Option ℚ := Option.none
deriving DecidableEq, Repr

/-- Runtime-level `TaskRecurrence` (validator output). -/
inductive RawTaskRecurrence where
  | legacy (p : LegacyRecurrencePattern)
  | flexible (c : RawRecurrenceConfig)
  | none
deriving DecidableEq, Repr

/-- Helper for `setDedup`: keep elements not yet seen, in order. -/
def setDedupAux (seen : List ℚ) : List ℚ → List ℚ
  | [] => []
  | x :: xs =>
    if x ∈ seen then setDedupAux seen xs
    else x :: setDedupAux (x :: seen) xs

/-- `[...new Set(xs)]`: drop duplicates, keeping first occurrences. -/
def setDedup (l : List ℚ) : List ℚ :=
  setDedupAux [] l

/-- The element filter of the validator's `weekDays` branch:
`typeof d === 'number' && d >= 0 && d <= 6` (no integrality check). -/
def weekDayFilter (v : JSValue) : Option ℚ :=
  match v with
  | .num d => if 0 ≤ d ∧ d ≤ 6 then some d else Option.none
  | _ => Option.none

/-- `validateRecurrence(rec)` (the `validateRecurrence` closure inside the
AI-task handler).  Control flow follows the source: `null`/`undefined`
first, then the string case (exact match against the four legacy names),
then the object case: numeric `interval ≥ 1` and a valid `unit` are
required, `interval` is floored and clamped to `[1, 99]`, `weekDays` is
filtered/deduplicated/sorted and kept only when non-empty, `monthDay` is
kept when numeric and in `[1, 31]`.  Arrays have `typeof === 'object'` but
no `interval` property, and numbers/booleans skip both branches; all of
these fall through to the final `return null`. -/
def validateRecurrence (rec : JSValue) : RawTaskRecurrence :=
  match rec with
  | .null | .undef => .none
  | .str s =>
    if s = "daily" then .legacy .daily
    else if s = "weekly" then .legacy .weekly
    else if s = "monthly" then .legacy .monthly
    else if s = "yearly" then .legacy .yearly
    else .none
  | .num _ | .bool _ | .arr _ => .none
  | .obj interval unit weekDays monthDay =>
    match interval with
    | some (.num q) =>
      if q < 1 then .none
      else
        match unit with
        | some (.str u) =>
          if u = "day" ∨ u = "week" ∨ u = "month" ∨ u = "year" then
            let validatedUnit : RecurrenceUnit :=
              if u = "day" then .day
              else if u = "week" then .week
              else if u = "month" then .month
              else .year
            let validatedInterval : ℚ := ((max 1 (min 99 ⌊q⌋) : Int) : ℚ)
            let validatedWeekDays : Option (List ℚ) :=
              match weekDays with
              | some (.arr xs) =>
                if xs.length > 0 then
                  let validDays := xs.filterMap weekDayFilter
                  if validDays.length > 0 then
                    some (List.insertionSort (fun a b => a ≤ b) (setDedup validDays))
                  else Option.none
                else Option.none
              | _ => Option.none
            let validatedMonthDay : Option ℚ :=
              match monthDay with
              | some (.num d) =>
                if 1 ≤ d ∧ d ≤ 31 then some d else Option.none
              | _ => Option.none
            .flexible
              { interval := validatedInterval
                unit := validatedUnit
                weekDays := validatedWeekDays
                monthDay := validatedMonthDay }
          else .none
        | _ => .none
    | _ => .none

/-- The name under which a legacy pattern is stored (`'daily'` etc.). -/
def legacyPatternName : LegacyRecurrencePattern → String
  | .daily => "daily" | .weekly => "weekly"
  | .monthly => "monthly" | .yearly => "yearly"

/-- The name under which a unit is stored (`'day'` etc.). -/
def recurrenceUnitName : RecurrenceUnit → String
  | .day => "day" | .week => "week" | .month => "month" | .year => "year"

/-- The inclusion of validator outputs back into JS values.  At runtime a
`TaskRecurrence` IS a JS value (a legacy pattern is its name string, a
flexible config is an object, `null` is `null`), so this is the identity
seen through the embedding, not an extra serialisation step. -/
def serializeRecurrence : RawTaskRecurrence → JSValue
  | .none => .null
  | .legacy p => .str (legacyPatternName p)
  | .flexible c =>
    .obj (some (.num c.interval)) (some (.str (recurrenceUnitName c.unit)))
      ((c.weekDays.map fun ws => .arr (ws.map .num)))
      (c.monthDay.map .num)

/-! ## Calendar arithmetic lemmas -/

theorem daysInMonth_ge (y : Int) (m : Nat) : 28 ≤ daysInMonth y m := by
  unfold daysInMonth; split <;> first | omega | (split_ifs <;> omega)

theorem daysInMonth_le (y : Int) (m : Nat) : daysInMonth y m ≤ 31 := by
  unfold daysInMonth; split <;> first | omega | (split_ifs <;> omega)

theorem CalDate.nextDay_valid {d : CalDate} (hd : d.Valid) : d.nextDay.Valid := by
  obtain ⟨y, m, dd⟩ := d
  obtain ⟨hm, h1, h2⟩ := hd
  dsimp only at hm h1 h2
  have g1 := daysInMonth_ge y (m + 1)
  have g2 := daysInMonth_ge (y + 1) 0
  unfold CalDate.nextDay
  dsimp only
  refine ⟨?_, ?_, ?_⟩ <;> (split_ifs with hlt hm11 <;> dsimp only <;> omega)

theorem CalDate.dayOfWeek_lo (y : Int) (m dd : Nat) (h : m < 2) :
    CalDate.dayOfWeek ⟨y, m, dd⟩ =
      (y - 1 + (y - 1) / 4 - (y - 1) / 100 + (y - 1) / 400 + monthCode m + (dd : Int)) % 7 := by
  dsimp only [CalDate.dayOfWeek]
  rw [if_pos h]

theorem CalDate.dayOfWeek_hi (y : Int) (m dd : Nat) (h : ¬ m < 2) :
    CalDate.dayOfWeek ⟨y, m, dd⟩ =
      (y + y / 4 - y / 100 + y / 400 + monthCode m + (dd : Int)) % 7 := by
  dsimp only [CalDate.dayOfWeek]
  rw [if_neg h]

set_option maxHeartbeats 2000000 in
/-- The crucial compatibility of the Sakamoto day-of-week formula with
single-day stepping: going to the next calendar day advances the weekday
by one (mod 7), across month, year and leap-year boundaries. -/
theorem CalDate.dayOfWeek_nextDay {d : CalDate} (hd : d.Valid) :
    d.nextDay.dayOfWeek = (d.dayOfWeek + 1) % 7 := by
  obtain ⟨y, m, dd⟩ := d
  obtain ⟨hm, h1, h2⟩ := hd
  dsimp only at hm h1 h2
  interval_cases m
  -- January
  · simp only [daysInMonth] at h2
    simp [CalDate.nextDay, daysInMonth]
    split_ifs <;>
      (rw [CalDate.dayOfWeek_lo, CalDate.dayOfWeek_lo] <;>
        (try simp only [monthCode]) <;> omega)
  -- February
  · simp only [daysInMonth] at h2
    simp [CalDate.nextDay, daysInMonth]
    split_ifs at h2 ⊢ with hleap hlt hlt2
    · rw [CalDate.dayOfWeek_lo, CalDate.dayOfWeek_lo] <;>
        (try simp only [monthCode]) <;> omega
    · unfold isLeap at hleap
      have e4 : (y % 4 = 0 ∧ (y-1)/4 = y/4 - 1) ∨ (¬ y % 4 = 0 ∧ (y-1)/4 = y/4) := by omega
      have e100 : (y % 100 = 0 ∧ (y-1)/100 = y/100 - 1) ∨
          (¬ y % 100 = 0 ∧ (y-1)/100 = y/100) := by omega
      have e400 : (y % 400 = 0 ∧ (y-1)/400 = y/400 - 1) ∨
          (¬ y % 400 = 0 ∧ (y-1)/400 = y/400) := by omega
      rw [CalDate.dayOfWeek_hi, CalDate.dayOfWeek_lo] <;>
        (try simp only [monthCode]) <;> omega
    · rw [CalDate.dayOfWeek_lo, CalDate.dayOfWeek_lo] <;>
        (try simp only [monthCode]) <;> omega
    · unfold isLeap at hleap
      have e4 : (y % 4 = 0 ∧ (y-1)/4 = y/4 - 1) ∨ (¬ y % 4 = 0 ∧ (y-1)/4 = y/4) := by omega
      have e100 : (y % 100 = 0 ∧ (y-1)/100 = y/100 - 1) ∨
          (¬ y % 100 = 0 ∧ (y-1)/100 = y/100) := by omega
      have e400 : (y % 400 = 0 ∧ (y-1)/400 = y/400 - 1) ∨
          (¬ y % 400 = 0 ∧ (y-1)/400 = y/400) := by omega
      rw [CalDate.dayOfWeek_hi, CalDate.dayOfWeek_lo] <;>
        (try simp only [monthCode]) <;> omega
  -- March .. November
  · simp only [daysInMonth] at h2
    simp [CalDate.nextDay, daysInMonth]
    split_ifs <;>
      (rw [CalDate.dayOfWeek_hi, CalDate.dayOfWeek_hi] <;>
        (try simp only [monthCode]) <;> omega)
  · simp only [daysInMonth] at h2
    simp [CalDate.nextDay, daysInMonth]
    split_ifs <;>
      (rw [CalDate.dayOfWeek_hi, CalDate.dayOfWeek_hi] <;>
        (try simp only [monthCode]) <;> omega)
  · simp only [daysInMonth] at h2
    simp [CalDate.nextDay, daysInMonth]
    split_ifs <;>
      (rw [CalDate.dayOfWeek_hi, CalDate.dayOfWeek_hi] <;>
        (try simp only [monthCode]) <;> omega)
  · simp only [daysInMonth] at h2
    simp [CalDate.nextDay, daysInMonth]
    split_ifs <;>
      (rw [CalDate.dayOfWeek_hi, CalDate.dayOfWeek_hi] <;>
        (try simp only [monthCode]) <;> omega)
  · simp only [daysInMonth] at h2
    simp [CalDate.nextDay, daysInMonth]
    split_ifs <;>
      (rw [CalDate.dayOfWeek_hi, CalDate.dayOfWeek_hi] <;>
        (try simp only [monthCode]) <;> omega)
  · simp only [daysInMonth] at h2
    simp [CalDate.nextDay, daysInMonth]
    split_ifs <;>
      (rw [CalDate.dayOfWeek_hi, CalDate.dayOfWeek_hi] <;>
        (try simp only [monthCode]) <;> omega)
  · simp only [daysInMonth] at h2
    simp [CalDate.nextDay, daysInMonth]
    split_ifs <;>
      (rw [CalDate.dayOfWeek_hi, CalDate.dayOfWeek_hi] <;>
        (try simp only [monthCode]) <;> omega)
  · simp only [daysInMonth] at h2
    simp [CalDate.nextDay, daysInMonth]
    split_ifs <;>
      (rw [CalDate.dayOfWeek_hi, CalDate.dayOfWeek_hi] <;>
        (try simp only [monthCode]) <;> omega)
  · simp only [daysInMonth] at h2
    simp [CalDate.nextDay, daysInMonth]
    split_ifs <;>
      (rw [CalDate.dayOfWeek_hi, CalDate.dayOfWeek_hi] <;>
        (try simp only [monthCode]) <;> omega)
  -- December
  · simp only [daysInMonth] at h2
    simp [CalDate.nextDay, daysInMonth]
    split_ifs
    · rw [CalDate.dayOfWeek_hi, CalDate.dayOfWeek_hi] <;>
        (try simp only [monthCode]) <;> omega
    · rw [CalDate.dayOfWeek_lo, CalDate.dayOfWeek_hi] <;>
        (try simp only [monthCode]) <;> omega

theorem CalDate.addDays_valid {d : CalDate} (hd : d.Valid) (n : Nat) :
    (d.addDays n).Valid := by
  induction n with
  | zero => exact hd
  | succ n ih => exact CalDate.nextDay_valid ih

theorem CalDate.dayOfWeek_nonneg (d : CalDate) : 0 ≤ d.dayOfWeek := by
  dsimp only [CalDate.dayOfWeek]
  omega

theorem CalDate.dayOfWeek_lt (d : CalDate) : d.dayOfWeek < 7 := by
  dsimp only [CalDate.dayOfWeek]
  omega

theorem CalDate.dayOfWeek_addDays {d : CalDate} (hd : d.Valid) (n : Nat) :
    (d.addDays n).dayOfWeek = (d.dayOfWeek + n) % 7 := by
  induction n with
  | zero =>
    have g1 := CalDate.dayOfWeek_nonneg d
    have g2 := CalDate.dayOfWeek_lt d
    simp only [CalDate.addDays, Nat.cast_zero, Int.add_zero]
    omega
  | succ n ih =>
    have hv := CalDate.addDays_valid hd n
    rw [CalDate.addDays, CalDate.dayOfWeek_nextDay hv, ih]
    push_cast
    omega

theorem CalDate.lt_nextDay {d : CalDate} (hd : d.Valid) : CalDate.lt d d.nextDay := by
  obtain ⟨y, m, dd⟩ := d
  obtain ⟨hm, h1, h2⟩ := hd
  dsimp only at hm h1 h2
  unfold CalDate.nextDay CalDate.lt CalDate.monthLinear
  split_ifs <;> dsimp only <;> omega

theorem CalDate.lt_trans {a b c : CalDate} (h1 : CalDate.lt a b) (h2 : CalDate.lt b c) :
    CalDate.lt a c := by
  unfold CalDate.lt CalDate.monthLinear at *
  omega

theorem CalDate.lt_addDays {d : CalDate} (hd : d.Valid) {n : Nat} (hn : 1 ≤ n) :
    CalDate.lt d (d.addDays n) := by
  induction n with
  | zero => omega
  | succ n ih =>
    rcases Nat.eq_zero_or_pos n with h0 | hpos
    · subst h0
      exact CalDate.lt_nextDay hd
    · exact CalDate.lt_trans (ih hpos)
        (CalDate.lt_nextDay (CalDate.addDays_valid hd n))

theorem CalDate.addDaysInt_ofNat (d : CalDate) (n : Int) (h : 0 ≤ n) :
    d.addDaysInt n = d.addDays n.toNat := by
  unfold CalDate.addDaysInt
  rw [if_pos h]

theorem CalDate.monthLinear_addMonths (d : CalDate) (k : Int) :
    d.monthLinear + k ≤ (d.addMonths k).monthLinear ∧
      (d.addMonths k).monthLinear ≤ d.monthLinear + k + 1 := by
  obtain ⟨y, m, dd⟩ := d
  unfold CalDate.addMonths CalDate.monthLinear
  dsimp only
  split_ifs <;> dsimp only <;> omega

theorem CalDate.addMonths_valid {d : CalDate} (hd : d.Valid) (k : Int) :
    (d.addMonths k).Valid := by
  obtain ⟨y, m, dd⟩ := d
  obtain ⟨hm, h1, h2⟩ := hd
  dsimp only at hm h1 h2
  have g1 := daysInMonth_le y m
  unfold CalDate.addMonths
  dsimp only
  set t : Int := (m : Int) + k with ht
  set y2 : Int := y + t / 12 with hy2
  set m2 : Nat := (t % 12).toNat with hm2
  have g2 := daysInMonth_ge y2 m2
  have g3 := daysInMonth_ge (y2 + 1) 0
  have g4 := daysInMonth_ge y2 (m2 + 1)
  have hm2le : m2 ≤ 11 := by omega
  split_ifs <;> exact ⟨by dsimp only; omega, by dsimp only; omega, by dsimp only; omega⟩

theorem CalDate.monthLinear_addYears (d : CalDate) (k : Int) :
    d.monthLinear + 12 * k ≤ (d.addYears k).monthLinear ∧
      (d.addYears k).monthLinear ≤ d.monthLinear + 12 * k + 1 := by
  obtain ⟨y, m, dd⟩ := d
  unfold CalDate.addYears CalDate.monthLinear
  dsimp only
  split_ifs <;> dsimp only <;> omega

theorem CalDate.addYears_valid {d : CalDate} (hd : d.Valid) (k : Int) :
    (d.addYears k).Valid := by
  obtain ⟨y, m, dd⟩ := d
  obtain ⟨hm, h1, h2⟩ := hd
  dsimp only at hm h1 h2
  have g1 := daysInMonth_le y m
  unfold CalDate.addYears
  dsimp only
  have g2 := daysInMonth_ge (y + k) m
  have g3 := daysInMonth_ge (y + k + 1) 0
  have g4 := daysInMonth_ge (y + k) (m + 1)
  split_ifs <;> exact ⟨by dsimp only; omega, by dsimp only; omega, by dsimp only; omega⟩

theorem CalDate.addDays_same_month (y : Int) (m : Nat) (j k : Nat) (h1 : 1 ≤ j)
    (h : j + k ≤ daysInMonth y m) :
    CalDate.addDays ⟨y, m, j⟩ k = ⟨y, m, j + k⟩ := by
  induction k with
  | zero => rfl
  | succ k ih =>
    rw [CalDate.addDays, ih (by omega)]
    unfold CalDate.nextDay
    rw [if_pos (by dsimp only; omega)]
    dsimp only
    congr 1

theorem CalDate.setDateJS_eq (d : CalDate) (n : Int) (h1 : 1 ≤ n)
    (h2 : n.toNat ≤ daysInMonth d.year d.month) :
    d.setDateJS n = ⟨d.year, d.month, n.toNat⟩ := by
  unfold CalDate.setDateJS
  rw [CalDate.addDaysInt_ofNat _ _ (by omega),
    CalDate.addDays_same_month _ _ _ _ (by omega) (by omega)]
  congr 1
  omega

theorem find_gt_sorted_eq_least {l : List (Fin 7)} (hs : List.Sorted (fun a b => a ≤ b) l)
    {c : Int} {dm : Fin 7} (hmem : dm ∈ l) (hgt : c < ((dm : Nat) : Int))
    (hmin : ∀ e ∈ l, c < ((e : Nat) : Int) → dm ≤ e) :
    l.find? (fun d : Fin 7 => c < ((d : Nat) : Int)) = some dm := by
  induction l with
  | nil => cases hmem
  | cons a l ih =>
    by_cases ha : c < ((a : Nat) : Int)
    · have hda : dm ≤ a := hmin a (List.mem_cons_self a l) ha
      have had : a ≤ dm := by
        rcases List.mem_cons.mp hmem with rfl | hm
        · exact le_refl _
        · exact List.rel_of_sorted_cons hs dm hm
      rw [List.find?_cons_of_pos _ (by simpa using ha)]
      exact congrArg some (le_antisymm hda had).symm
    · have hdm_ne : dm ≠ a := by
        rintro rfl; exact ha hgt
      have hm : dm ∈ l := by
        rcases List.mem_cons.mp hmem with rfl | hm
        · exact absurd rfl hdm_ne
        · exact hm
      rw [List.find?_cons_of_neg _ (by simpa using ha)]
      exact ih (List.sorted_cons.mp hs).2 hm
        (fun e he hce => hmin e (List.mem_cons_of_mem a he) hce)

theorem find_gt_eq_none {l : List (Fin 7)} {c : Int}
    (h : ∀ e ∈ l, ¬ c < ((e : Nat) : Int)) :
    l.find? (fun d : Fin 7 => c < ((d : Nat) : Int)) = none := by
  rw [List.find?_eq_none]
  intro x hx
  simpa using h x hx

theorem headI_sorted_eq_least {l : List (Fin 7)} (hs : List.Sorted (fun a b => a ≤ b) l)
    {d0 : Fin 7} (hmem : d0 ∈ l) (hmin : ∀ e ∈ l, d0 ≤ e) : l.headI = d0 := by
  cases l with
  | nil => cases hmem
  | cons a l =>
    have h1 : d0 ≤ a := hmin a (List.mem_cons_self a l)
    have h2 : a ≤ d0 := by
      rcases List.mem_cons.mp hmem with rfl | hm
      · exact le_refl _
      · exact List.rel_of_sorted_cons hs d0 hm
    simpa [List.headI] using (le_antisymm h1 h2).symm

theorem insertionSort_ne_nil {ws : List (Fin 7)} (hne : ws ≠ []) :
    List.insertionSort (fun a b => a ≤ b) ws ≠ [] := by
  intro h
  apply hne
  have hp := List.perm_insertionSort (fun a b => a ≤ b) ws
  rw [h] at hp
  exact hp.symm.eq_nil

/-- The result of `findNextWeekdayOccurrence` is `baseDate` plus a
strictly positive number of days. -/
theorem findNextWeekdayOccurrence_addDays (baseDate : CalDate) (weekInterval : Int)
    (weekDays : List (Fin 7)) (hN : 1 ≤ weekInterval) (hne : weekDays ≠ []) :
    ∃ n : Nat, 1 ≤ n ∧
      findNextWeekdayOccurrence baseDate weekInterval weekDays = baseDate.addDays n := by
  have hc0 := CalDate.dayOfWeek_nonneg baseDate
  have hc7 := CalDate.dayOfWeek_lt baseDate
  have hsne := insertionSort_ne_nil hne
  have hd0 : ((List.insertionSort (fun a b => a ≤ b) weekDays).headI : Nat) < 7 :=
    Fin.isLt _
  unfold findNextWeekdayOccurrence
  cases hfind : (List.insertionSort (fun a b => a ≤ b) weekDays).find?
      (fun d : Fin 7 => baseDate.dayOfWeek < ((d : Nat) : Int)) with
  | some d =>
    have hgt : baseDate.dayOfWeek < ((d : Nat) : Int) := by
      simpa using List.find?_some hfind
    simp only [hfind]
    by_cases h1 : weekInterval = 1
    · rw [if_pos h1]
      refine ⟨(((d : Nat) : Int) - baseDate.dayOfWeek).toNat, by omega, ?_⟩
      rw [CalDate.addDaysInt_ofNat _ _ (by omega)]
    · rw [if_neg h1]
      refine ⟨(7 - baseDate.dayOfWeek +
          ((List.insertionSort (fun a b => a ≤ b) weekDays).headI : Nat) +
          (weekInterval - 1) * 7).toNat, by omega, ?_⟩
      rw [CalDate.addDaysInt_ofNat _ _ (by omega)]
  | none =>
    simp only [hfind]
    refine ⟨(7 - baseDate.dayOfWeek +
        ((List.insertionSort (fun a b => a ≤ b) weekDays).headI : Nat) +
        (weekInterval - 1) * 7).toNat, by omega, ?_⟩
    rw [CalDate.addDaysInt_ofNat _ _ (by omega)]

/-- The result of `findNextWeekdayOccurrence` falls on one of the selected
weekdays. -/
theorem findNextWeekdayOccurrence_mem (baseDate : CalDate) (hb : baseDate.Valid)
    (weekInterval : Int) (weekDays : List (Fin 7))
    (hN : 1 ≤ weekInterval) (hne : weekDays ≠ []) :
    ∃ e ∈ weekDays,
      (findNextWeekdayOccurrence baseDate weekInterval weekDays).dayOfWeek =
        ((e : Nat) : Int) := by
  have hc0 := CalDate.dayOfWeek_nonneg baseDate
  have hc7 := CalDate.dayOfWeek_lt baseDate
  have hsne := insertionSort_ne_nil hne
  have hd0mem : (List.insertionSort (fun a b => a ≤ b) weekDays).headI ∈ weekDays := by
    rw [← List.mem_insertionSort (fun a b => a ≤ b)]
    cases hcons : List.insertionSort (fun a b => a ≤ b) weekDays with
    | nil => exact absurd hcons hsne
    | cons a l => simp [List.headI]
  have hd0 : ((List.insertionSort (fun a b => a ≤ b) weekDays).headI : Nat) < 7 :=
    Fin.isLt _
  unfold findNextWeekdayOccurrence
  cases hfind : (List.insertionSort (fun a b => a ≤ b) weekDays).find?
      (fun d : Fin 7 => baseDate.dayOfWeek < ((d : Nat) : Int)) with
  | some d =>
    have hgt : baseDate.dayOfWeek < ((d : Nat) : Int) := by
      simpa using List.find?_some hfind
    have hdmem : d ∈ weekDays := by
      rw [← List.mem_insertionSort (fun a b => a ≤ b)]
      exact List.mem_of_find?_eq_some hfind
    have hdlt : (d : Nat) < 7 := Fin.isLt _
    simp only [hfind]
    by_cases h1 : weekInterval = 1
    · rw [if_pos h1]
      refine ⟨d, hdmem, ?_⟩
      rw [CalDate.addDaysInt_ofNat _ _ (by omega),
        CalDate.dayOfWeek_addDays hb]
      omega
    · rw [if_neg h1]
      refine ⟨_, hd0mem, ?_⟩
      rw [CalDate.addDaysInt_ofNat _ _ (by omega),
        CalDate.dayOfWeek_addDays hb]
      omega
  | none =>
    simp only [hfind]
    refine ⟨_, hd0mem, ?_⟩
    rw [CalDate.addDaysInt_ofNat _ _ (by omega),
      CalDate.dayOfWeek_addDays hb]
    omega

theorem CalDate.lt_of_monthLinear_lt {a b : CalDate}
    (h : a.monthLinear < b.monthLinear) : CalDate.lt a b :=
  Or.inl h

theorem calculateLegacyNextDeadline_lt (base : CalDate) (hb : base.Valid)
    (p : LegacyRecurrencePattern) :
    CalDate.lt base (calculateLegacyNextDeadline base p) := by
  cases p
  · show CalDate.lt base (base.addDaysInt 1)
    rw [CalDate.addDaysInt_ofNat _ _ (by omega)]
    exact CalDate.lt_addDays hb (by omega)
  · show CalDate.lt base (base.addDaysInt 7)
    rw [CalDate.addDaysInt_ofNat _ _ (by omega)]
    exact CalDate.lt_addDays hb (by omega)
  · show CalDate.lt base (base.addMonths 1)
    exact CalDate.lt_of_monthLinear_lt
      (by have := CalDate.monthLinear_addMonths base 1; omega)
  · show CalDate.lt base (base.addYears 1)
    exact CalDate.lt_of_monthLinear_lt
      (by have := CalDate.monthLinear_addYears base 1; omega)

theorem calculateFlexibleNextDeadline_lt (base : CalDate) (hb : base.Valid)
    (c : RecurrenceConfig) (hi : 1 ≤ c.interval)
    (hmd : ∀ md, c.monthDay = some md → 1 ≤ md ∧ md ≤ 31) :
    CalDate.lt base (calculateFlexibleNextDeadline base c) := by
  obtain ⟨i, u, wd, md⟩ := c
  dsimp only at hi hmd
  cases u
  -- day
  · show CalDate.lt base (base.addDaysInt i)
    rw [CalDate.addDaysInt_ofNat _ _ (by omega)]
    exact CalDate.lt_addDays hb (by omega)
  -- week
  · unfold calculateFlexibleNextDeadline
    dsimp only
    split_ifs with hlen
    · have hne : wd.getD [] ≠ [] := by
        intro h
        rw [h] at hlen
        simp at hlen
      obtain ⟨n, hn1, heq⟩ :=
        findNextWeekdayOccurrence_addDays base i (wd.getD []) hi hne
      rw [heq]
      exact CalDate.lt_addDays hb hn1
    · rw [CalDate.addDaysInt_ofNat _ _ (by omega)]
      exact CalDate.lt_addDays hb (by omega)
  -- month
  · unfold calculateFlexibleNextDeadline
    dsimp only
    have hlin := CalDate.monthLinear_addMonths base i
    cases md with
    | none =>
      dsimp only
      exact CalDate.lt_of_monthLinear_lt (by omega)
    | some m =>
      dsimp only
      obtain ⟨hm1, hm31⟩ := hmd m rfl
      have hge : (28 : Int) ≤ (getDaysInMonth (base.addMonths i) : Int) := by
        exact_mod_cast daysInMonth_ge (base.addMonths i).year (base.addMonths i).month
      have hle : ((getDaysInMonth (base.addMonths i) : Int)) ≤ 31 := by
        exact_mod_cast daysInMonth_le (base.addMonths i).year (base.addMonths i).month
      rw [CalDate.setDateJS_eq _ _ (by omega) (by
        show (min m ((getDaysInMonth (base.addMonths i) : Int))).toNat ≤
          daysInMonth (base.addMonths i).year (base.addMonths i).month
        have : daysInMonth (base.addMonths i).year (base.addMonths i).month =
            getDaysInMonth (base.addMonths i) := rfl
        omega)]
      refine CalDate.lt_of_monthLinear_lt ?_
      have hml : CalDate.monthLinear ⟨(base.addMonths i).year, (base.addMonths i).month,
          (min m ((getDaysInMonth (base.addMonths i) : Int))).toNat⟩ =
          (base.addMonths i).monthLinear := rfl
      omega
  -- year
  · show CalDate.lt base (base.addYears i)
    have := CalDate.monthLinear_addYears base i
    exact CalDate.lt_of_monthLinear_lt (by omega)

/-- The hypotheses C2 grants about a validated spec: `interval ∈ [1, 99]`
and, in a flexible spec, `monthDay ∈ [1, 31]` when present. -/
def ValidatedSpec : TaskRecurrence → Prop
  | .none => True
  | .legacy _ => True
  | .flexible c => 1 ≤ c.interval ∧ c.interval ≤ 99 ∧
      ∀ md, c.monthDay = some md → 1 ≤ md ∧ md ≤ 31

/-- C2: for every validated recurrence spec (legacy or flexible, interval
in `[1, 99]`, optional weekDays/monthDay) and every base date, the
calculator succeeds and its result is strictly after the base date. -/
theorem C2_next_deadline_strictly_after (today : CalDate)
    (currentDeadline : Option CalDate) (recurrence : TaskRecurrence)
    (hv : (currentDeadline.getD today).Valid)
    (hs : ValidatedSpec recurrence) (hne : recurrence ≠ .none) :
    ∃ nd, calculateNextDeadline today currentDeadline recurrence = .ok nd ∧
      CalDate.lt (currentDeadline.getD today) nd := by
  cases recurrence with
  | none => exact absurd rfl hne
  | legacy p => exact ⟨_, rfl, calculateLegacyNextDeadline_lt _ hv p⟩
  | flexible c =>
    obtain ⟨h1, h2, h3⟩ := hs
    exact ⟨_, rfl, calculateFlexibleNextDeadline_lt _ hv c h1 h3⟩

theorem C2_witness :
    ∃ nd, calculateNextDeadline ⟨2024, 0, 31⟩ (some ⟨2024, 0, 31⟩)
        (.flexible ⟨1, .month, Option.none, some 31⟩) = .ok nd ∧
      CalDate.lt ⟨2024, 0, 31⟩ nd :=
  C2_next_deadline_strictly_after ⟨2024, 0, 31⟩ (some ⟨2024, 0, 31⟩)
    (.flexible ⟨1, .month, Option.none, some 31⟩) (by decide)
    (by
      refine ⟨by norm_num, by norm_num, ?_⟩
      intro md h
      injection h with h2
      omega)
    (by decide)

/-- C8: the calculator signals an error exactly when the spec is `none`
(`throw new Error('Recurrence pattern is required')`), and returns a
calendar date for every non-`none` spec and any (present or absent)
deadline. -/
theorem C8_error_iff_none_spec (today : CalDate) (currentDeadline : Option CalDate)
    (recurrence : TaskRecurrence) :
    ((∃ e, calculateNextDeadline today currentDeadline recurrence = Except.error e) ↔
      recurrence = .none) ∧
    (recurrence ≠ .none →
      ∃ nd, calculateNextDeadline today currentDeadline recurrence = Except.ok nd) := by
  cases recurrence <;> simp [calculateNextDeadline]

theorem C8_witness :
    ∃ nd, calculateNextDeadline ⟨2024, 0, 1⟩ Option.none (.legacy .daily) =
      Except.ok nd :=
  (C8_error_iff_none_spec ⟨2024, 0, 1⟩ Option.none (.legacy .daily)).2 (by decide)

/-- C1 (code bug): from a January 31, 2025 base with a flexible monthly
spec `interval = 1`, `monthDay = 31`, the code returns March 31, 2025 —
not the last day of February.  `setMonth` first rolls Jan 31 + 1 month to
March 3, and the `Math.min(monthDay, getDaysInMonth(nextDate))` clamp is
then taken against March (31 days), so the date lands on March 31. -/
theorem C1_month_clamp_failing_eval :
    calculateFlexibleNextDeadline ⟨2025, 0, 31⟩
        ⟨1, .month, Option.none, some 31⟩ = ⟨2025, 2, 31⟩ ∧
    calculateNextDeadline ⟨2025, 0, 31⟩ (some ⟨2025, 0, 31⟩)
        (.flexible ⟨1, .month, Option.none, some 31⟩) = Except.ok ⟨2025, 2, 31⟩ ∧
    daysInMonth 2025 1 = 28 := by
  refine ⟨by decide, by rfl, by decide⟩

/-- C10: for every valid base date, non-empty weekday list and interval
at least 1, the weekday-occurrence routine lands on a selected weekday. -/
theorem C10_lands_on_selected_weekday (baseDate : CalDate) (hb : baseDate.Valid)
    (weekInterval : Int) (weekDays : List (Fin 7))
    (hN : 1 ≤ weekInterval) (hne : weekDays ≠ []) :
    ∃ e ∈ weekDays,
      (findNextWeekdayOccurrence baseDate weekInterval weekDays).dayOfWeek =
        ((e : Nat) : Int) :=
  findNextWeekdayOccurrence_mem baseDate hb weekInterval weekDays hN hne

theorem C10_witness :
    ∃ e ∈ ([1, 3] : List (Fin 7)),
      (findNextWeekdayOccurrence ⟨2024, 0, 3⟩ 1 [1, 3]).dayOfWeek =
        ((e : Nat) : Int) :=
  C10_lands_on_selected_weekday ⟨2024, 0, 3⟩ (by decide) 1 [1, 3]
    (by norm_num) (by decide)

/-- C3: the two branches of the weekday-occurrence algorithm.  With
`current` the base date's weekday: when `N = 1` and `dm` is the nearest
selected weekday strictly greater than `current`, the routine adds
`dm - current` days; otherwise (no later selected day this week, or
`N ≠ 1`) it adds `(7 - current + smallest selected weekday) + (N-1)*7`
days.  In particular a Wednesday base with `weekDays = [Mon, Wed]` and
`N = 1` yields the following Monday. -/
theorem C3_weekday_branch_formulas (baseDate : CalDate) (weekInterval : Int)
    (weekDays : List (Fin 7)) :
    (∀ dm : Fin 7, weekInterval = 1 → dm ∈ weekDays →
      baseDate.dayOfWeek < ((dm : Nat) : Int) →
      (∀ e ∈ weekDays, baseDate.dayOfWeek < ((e : Nat) : Int) → dm ≤ e) →
      findNextWeekdayOccurrence baseDate weekInterval weekDays =
        baseDate.addDaysInt (((dm : Nat) : Int) - baseDate.dayOfWeek)) ∧
    (∀ d0 : Fin 7,
      (weekInterval ≠ 1 ∨ ∀ e ∈ weekDays, ((e : Nat) : Int) ≤ baseDate.dayOfWeek) →
      d0 ∈ weekDays → (∀ e ∈ weekDays, d0 ≤ e) →
      findNextWeekdayOccurrence baseDate weekInterval weekDays =
        baseDate.addDaysInt
          (7 - baseDate.dayOfWeek + ((d0 : Nat) : Int) + (weekInterval - 1) * 7)) ∧
    (baseDate.dayOfWeek = 3 → baseDate.Valid →
      findNextWeekdayOccurrence baseDate 1 [1, 3] = baseDate.addDaysInt 5 ∧
      (findNextWeekdayOccurrence baseDate 1 [1, 3]).dayOfWeek = 1) := by
  have hsorted := List.sorted_insertionSort (fun a b => a ≤ b) weekDays
  refine ⟨?_, ?_, ?_⟩
  · intro dm h1 hmem hgt hmin
    have hfind : (List.insertionSort (fun a b => a ≤ b) weekDays).find?
        (fun d : Fin 7 => baseDate.dayOfWeek < ((d : Nat) : Int)) = some dm :=
      find_gt_sorted_eq_least hsorted
        ((List.mem_insertionSort (fun a b => a ≤ b)).mpr hmem) hgt
        (fun e he hce =>
          hmin e ((List.mem_insertionSort (fun a b => a ≤ b)).mp he) hce)
    unfold findNextWeekdayOccurrence
    simp only [hfind]
    rw [if_pos h1]
  · intro d0 hcase hmem hmin
    have hhead : (List.insertionSort (fun a b => a ≤ b) weekDays).headI = d0 :=
      headI_sorted_eq_least hsorted
        ((List.mem_insertionSort (fun a b => a ≤ b)).mpr hmem)
        (fun e he => hmin e ((List.mem_insertionSort (fun a b => a ≤ b)).mp he))
    rcases hcase with hN | hnone
    · unfold findNextWeekdayOccurrence
      cases hfind : (List.insertionSort (fun a b => a ≤ b) weekDays).find?
          (fun d : Fin 7 => baseDate.dayOfWeek < ((d : Nat) : Int)) with
      | some d =>
        simp only [hfind]
        rw [if_neg hN, hhead]
      | none =>
        simp only [hfind]
        rw [hhead]
    · have hfind : (List.insertionSort (fun a b => a ≤ b) weekDays).find?
          (fun d : Fin 7 => baseDate.dayOfWeek < ((d : Nat) : Int)) = none :=
        find_gt_eq_none (fun e he => not_lt.mpr
          (hnone e ((List.mem_insertionSort (fun a b => a ≤ b)).mp he)))
      unfold findNextWeekdayOccurrence
      simp only [hfind]
      rw [hhead]
  · intro hdow hv
    have heq : findNextWeekdayOccurrence baseDate 1 [1, 3] = baseDate.addDaysInt 5 := by
      have h2 := (find_gt_eq_none (l := List.insertionSort (fun a b => a ≤ b) [1, 3])
        (c := baseDate.dayOfWeek) ?h)
      case h =>
        intro e he
        have : e ∈ ([1, 3] : List (Fin 7)) :=
          (List.mem_insertionSort (fun a b => a ≤ b)).mp he
        fin_cases this <;> rw [hdow] <;> decide
      have hsort13 : List.insertionSort (fun a b => a ≤ b) ([1, 3] : List (Fin 7)) =
          [1, 3] := by decide
      unfold findNextWeekdayOccurrence
      simp only [h2]
      rw [hdow, hsort13]
      norm_num
    refine ⟨heq, ?_⟩
    rw [heq, CalDate.addDaysInt_ofNat _ _ (by norm_num),
      CalDate.dayOfWeek_addDays hv, hdow]
    rfl

theorem C3_witness :
    findNextWeekdayOccurrence ⟨2024, 0, 3⟩ 1 [1, 3] =
        CalDate.addDaysInt ⟨2024, 0, 3⟩ 5 ∧
      (findNextWeekdayOccurrence ⟨2024, 0, 3⟩ 1 [1, 3]).dayOfWeek = 1 :=
  (C3_weekday_branch_formulas ⟨2024, 0, 3⟩ 1 [1, 3]).2.2 (by decide) (by decide)

theorem sorted_fin7_sublist (ws : List (Fin 7))
    (hs : List.Sorted (fun a b => a < b) ws) :
    List.Sublist ws [0, 1, 2, 3, 4, 5, 6] := by
  have hsub : ws ⊆ [0, 1, 2, 3, 4, 5, 6] := by
    intro x _
    fin_cases x <;> simp
  have hnd : ws.Nodup := hs.imp (fun h => ne_of_lt h)
  obtain ⟨l2, hperm, hsub2⟩ := List.subperm_of_subset hnd hsub
  have hsort2 : List.Sorted (fun a b : Fin 7 => a < b) [0, 1, 2, 3, 4, 5, 6] := by decide
  have hl2 : List.Sorted (fun a b : Fin 7 => a < b) l2 := hsort2.sublist hsub2
  have heq : l2 = ws := List.eq_of_perm_of_sorted hperm hl2 hs
  exact heq ▸ hsub2

set_option maxHeartbeats 4000000 in
set_option maxRecDepth 4000 in
/-- C9: with `interval = 1` and a validator-normalised (strictly sorted)
weekday list, the description is exactly "Weekends" iff the set is
`{Sun, Sat}` and exactly "Weekdays" iff it is `{Mon..Fri}`; no other
normalised weekday set yields either string. -/
theorem C9_weekend_weekday_descriptions (ws : List (Fin 7)) (hs : List.Sorted (fun a b => a < b) ws) :
    (getRecurrenceDescription (.flexible ⟨1, .week, some ws, Option.none⟩) =
        "Weekends" ↔ ws = [0, 6]) ∧
    (getRecurrenceDescription (.flexible ⟨1, .week, some ws, Option.none⟩) =
        "Weekdays" ↔ ws = [1, 2, 3, 4, 5]) := by
  have hall : ∀ l ∈ ([0, 1, 2, 3, 4, 5, 6] : List (Fin 7)).sublists,
      (getRecurrenceDescription (.flexible ⟨1, .week, some l, Option.none⟩) =
          "Weekends" ↔ l = [0, 6]) ∧
      (getRecurrenceDescription (.flexible ⟨1, .week, some l, Option.none⟩) =
          "Weekdays" ↔ l = [1, 2, 3, 4, 5]) := by decide
  exact hall ws (List.mem_sublists.mpr (sorted_fin7_sublist ws hs))

theorem C9_witness :
    (getRecurrenceDescription
        (.flexible ⟨1, .week, some [0, 6], Option.none⟩) = "Weekends" ↔
      ([0, 6] : List (Fin 7)) = [0, 6]) ∧
    (getRecurrenceDescription
        (.flexible ⟨1, .week, some [0, 6], Option.none⟩) = "Weekdays" ↔
      ([0, 6] : List (Fin 7)) = [1, 2, 3, 4, 5]) :=
  C9_weekend_weekday_descriptions [0, 6] (by decide)

/-- C7: the validator is a total function of the raw value (the model of
"never throws"); a string input maps back to itself exactly when it is one
of the four legacy pattern names, case-sensitively (otherwise the result
is `none`), and null/undefined input maps to `none`. -/
theorem C7_validator_string_and_null :
    (∀ s : String,
      serializeRecurrence (validateRecurrence (.str s)) = .str s ↔
        (s = "daily" ∨ s = "weekly" ∨ s = "monthly" ∨ s = "yearly")) ∧
    (∀ s : String, ¬ (s = "daily" ∨ s = "weekly" ∨ s = "monthly" ∨ s = "yearly") →
      validateRecurrence (.str s) = .none) ∧
    validateRecurrence .null = .none ∧
    validateRecurrence .undef = .none := by
  refine ⟨fun s => ?_, fun s h => ?_, rfl, rfl⟩
  · constructor
    · intro h
      by_contra hne
      push_neg at hne
      obtain ⟨h1, h2, h3, h4⟩ := hne
      simp [validateRecurrence, h1, h2, h3, h4, serializeRecurrence] at h
    · rintro (rfl | rfl | rfl | rfl) <;> rfl
  · push_neg at h
    obtain ⟨h1, h2, h3, h4⟩ := h
    simp [validateRecurrence, h1, h2, h3, h4]

theorem C7_witness :
    serializeRecurrence (validateRecurrence (.str "daily")) = .str "daily" ∧
      validateRecurrence (.str "Daily") = .none :=
  ⟨(C7_validator_string_and_null.1 "daily").mpr (Or.inl rfl),
    C7_validator_string_and_null.2.1 "Daily" (by decide)⟩

theorem mem_setDedupAux {a : ℚ} (seen l : List ℚ) :
    a ∈ setDedupAux seen l ↔ a ∈ l ∧ a ∉ seen := by
  induction l generalizing seen with
  | nil => simp [setDedupAux]
  | cons x xs ih =>
    simp only [setDedupAux]
    split_ifs with hx
    · rw [ih]
      constructor
      · rintro ⟨h1, h2⟩
        exact ⟨List.mem_cons_of_mem _ h1, h2⟩
      · rintro ⟨h1, h2⟩
        rcases List.mem_cons.mp h1 with rfl | h3
        · exact absurd hx h2
        · exact ⟨h3, h2⟩
    · constructor
      · intro h
        rcases List.mem_cons.mp h with rfl | h2
        · exact ⟨List.mem_cons_self _ _, hx⟩
        · obtain ⟨h3, h4⟩ := (ih (x :: seen)).mp h2
          exact ⟨List.mem_cons_of_mem _ h3,
            fun hs => h4 (List.mem_cons_of_mem _ hs)⟩
      · rintro ⟨h1, h2⟩
        rcases List.mem_cons.mp h1 with rfl | h3
        · exact List.mem_cons_self _ _
        · by_cases hax : a = x
          · exact hax ▸ List.mem_cons_self _ _
          · exact List.mem_cons_of_mem _ ((ih (x :: seen)).mpr
              ⟨h3, fun hs => (List.mem_cons.mp hs).elim hax h2⟩)

theorem mem_setDedup {l : List ℚ} {a : ℚ} : a ∈ setDedup l ↔ a ∈ l := by
  unfold setDedup
  rw [mem_setDedupAux]
  simp

theorem nodup_setDedupAux (seen l : List ℚ) : (setDedupAux seen l).Nodup := by
  induction l generalizing seen with
  | nil => exact List.nodup_nil
  | cons x xs ih =>
    simp only [setDedupAux]
    split_ifs with hx
    · exact ih seen
    · refine List.nodup_cons.mpr ⟨?_, ih (x :: seen)⟩
      intro hmem
      exact ((mem_setDedupAux _ _).mp hmem).2 (List.mem_cons_self _ _)

theorem nodup_setDedup (l : List ℚ) : (setDedup l).Nodup :=
  nodup_setDedupAux [] l

theorem setDedupAux_eq_self :
    ∀ (l seen : List ℚ), l.Nodup → (∀ a ∈ l, a ∉ seen) → setDedupAux seen l = l
  | [], _, _, _ => rfl
  | x :: xs, seen, h, hdisj => by
    simp only [setDedupAux]
    rw [if_neg (hdisj x (List.mem_cons_self _ _))]
    obtain ⟨hx, hxs⟩ := List.nodup_cons.mp h
    rw [setDedupAux_eq_self xs (x :: seen) hxs ?_]
    intro a ha hs
    rcases List.mem_cons.mp hs with rfl | h2
    · exact hx ha
    · exact hdisj a (List.mem_cons_of_mem _ ha) h2

theorem setDedup_eq_self {l : List ℚ} (h : l.Nodup) : setDedup l = l :=
  setDedupAux_eq_self l [] h (by simp)

theorem of_mem_filterMap_weekDayFilter {xs : List JSValue} {d : ℚ}
    (h : d ∈ xs.filterMap weekDayFilter) : 0 ≤ d ∧ d ≤ 6 := by
  obtain ⟨v, hv, he⟩ := List.mem_filterMap.mp h
  cases v <;> simp [weekDayFilter] at he
  case num q =>
    obtain ⟨hr, rfl⟩ := he
    exact hr

/-- Inversion of the validator's flexible output: it arose from an object
with a numeric interval not below 1 and a valid unit name, and each field
has exactly the shape the validator builds. -/
theorem validateRecurrence_flexible_inv {x : JSValue} {c : RawRecurrenceConfig}
    (h : validateRecurrence x = .flexible c) :
    (∃ q : ℚ, ¬ q < 1 ∧ c.interval = ((max 1 (min 99 ⌊q⌋) : ℤ) : ℚ)) ∧
    (∀ ws, c.weekDays = some ws → ∃ validDays : List ℚ, validDays ≠ [] ∧
      (∀ d ∈ validDays, 0 ≤ d ∧ d ≤ 6) ∧
      ws = List.insertionSort (fun a b => a ≤ b) (setDedup validDays)) ∧
    (∀ md, c.monthDay = some md → 1 ≤ md ∧ md ≤ 31) := by
  cases x with
  | undef => simp [validateRecurrence] at h
  | null => simp [validateRecurrence] at h
  | num q => simp [validateRecurrence] at h
  | bool b => simp [validateRecurrence] at h
  | arr l => simp [validateRecurrence] at h
  | str s =>
    simp only [validateRecurrence] at h
    split_ifs at h
  | obj i u w m =>
    simp only [validateRecurrence] at h
    cases i with
    | none => simp at h
    | some iv =>
      cases iv
      case undef => simp at h
      case null => simp at h
      case str s2 => simp at h
      case bool b2 => simp at h
      case arr l2 => simp at h
      case obj a2 b2 c2 d2 => simp at h
      case num q =>
        dsimp only at h
        by_cases hq : q < 1
        · rw [if_pos hq] at h
          simp at h
        · rw [if_neg hq] at h
          cases u with
          | none => simp at h
          | some uv =>
            cases uv with
            | undef => simp at h
            | null => simp at h
            | num q2 => simp at h
            | bool b2 => simp at h
            | arr l2 => simp at h
            | obj a2 b2 c2 d2 => simp at h
            | str s2 =>
              dsimp only at h
              by_cases hu : s2 = "day" ∨ s2 = "week" ∨ s2 = "month" ∨ s2 = "year"
              · rw [if_pos hu] at h
                rw [RawTaskRecurrence.flexible.injEq] at h
                subst h
                refine ⟨⟨q, hq, rfl⟩, ?_, ?_⟩
                · intro ws hws
                  dsimp only at hws
                  cases w with
                  | none => simp at hws
                  | some wv =>
                    cases wv with
                    | undef => simp at hws
                    | null => simp at hws
                    | num q2 => simp at hws
                    | str s3 => simp at hws
                    | bool b2 => simp at hws
                    | obj a2 b2 c2 d2 => simp at hws
                    | arr xs =>
                      dsimp only at hws
                      split_ifs at hws with hlen hvd
                      · injection hws with hws
                        refine ⟨xs.filterMap weekDayFilter, ?_,
                          (fun d hd => of_mem_filterMap_weekDayFilter hd), hws.symm⟩
                        intro hnil
                        rw [hnil] at hvd
                        simp at hvd
                · intro md hmd
                  dsimp only at hmd
                  cases m with
                  | none => simp at hmd
                  | some mv =>
                    cases mv with
                    | undef => simp at hmd
                    | null => simp at hmd
                    | str s3 => simp at hmd
                    | bool b2 => simp at hmd
                    | arr l2 => simp at hmd
                    | obj a2 b2 c2 d2 => simp at hmd
                    | num q2 =>
                      dsimp only at hmd
                      split_ifs at hmd with hr
                      · injection hmd with hmd
                        exact hmd ▸ hr
              · rw [if_neg hu] at h
                simp at h

/-- The invariants every validator-produced flexible spec satisfies (the
amended C6): integer interval in `[1, 99]`; weekDays, when present,
non-empty, de-duplicated, sorted ascending, every element a number in the
interval `[0, 6]`; monthDay, when present, a number in `[1, 31]`.  (The
validator does not force weekDays/monthDay to be integers, nor does it
drop them when the unit does not match.) -/
def NormalizedFlexible (c : RawRecurrenceConfig) : Prop :=
  (∃ n : ℤ, c.interval = (n : ℚ) ∧ 1 ≤ n ∧ n ≤ 99) ∧
  (∀ ws, c.weekDays = some ws → ws ≠ [] ∧ (∀ d ∈ ws, 0 ≤ d ∧ d ≤ 6) ∧
    ws.Nodup ∧ ws.Sorted (fun a b => a ≤ b)) ∧
  (∀ md, c.monthDay = some md → 1 ≤ md ∧ md ≤ 31)

/-- Every flexible spec the validator produces satisfies
`NormalizedFlexible`. -/
theorem validateRecurrence_normalized {x : JSValue} {c : RawRecurrenceConfig}
    (h : validateRecurrence x = .flexible c) : NormalizedFlexible c := by
  obtain ⟨⟨q, hq1, hq2⟩, hws, hmd⟩ := validateRecurrence_flexible_inv h
  refine ⟨⟨max 1 (min 99 ⌊q⌋), hq2, by omega, by omega⟩, ?_, hmd⟩
  intro ws h2
  obtain ⟨vd, hvne, hvrange, rfl⟩ := hws ws h2
  refine ⟨?_, ?_, ?_, List.sorted_insertionSort _ _⟩
  · intro hnil
    apply hvne
    have hperm := List.perm_insertionSort (fun a b : ℚ => a ≤ b) (setDedup vd)
    rw [hnil] at hperm
    have hde : setDedup vd = [] := hperm.symm.eq_nil
    cases vd with
    | nil => rfl
    | cons a l => simp [setDedup, setDedupAux] at hde
  · intro d hd
    exact hvrange d (mem_setDedup.mp
      ((List.mem_insertionSort (fun a b : ℚ => a ≤ b)).mp hd))
  · exact ((List.perm_insertionSort (fun a b : ℚ => a ≤ b) (setDedup vd)).nodup_iff).mpr
      (nodup_setDedup vd)

/-- C6 (amended): every flexible spec the validator produces satisfies
the `NormalizedFlexible` invariants. -/
theorem C6_amended_validator_invariants (x : JSValue) (c : RawRecurrenceConfig)
    (h : validateRecurrence x = .flexible c) : NormalizedFlexible c :=
  validateRecurrence_normalized h

theorem C6_witness : NormalizedFlexible ⟨2, .week, some [1, 3], some 15⟩ :=
  C6_amended_validator_invariants
    (.obj (some (.num 2)) (some (.str "week"))
      (some (.arr [.num 3, .num 1])) (some (.num 15)))
    ⟨2, .week, some [1, 3], some 15⟩ (by rfl)

/-- C6 counterexample: the claim as stated is false on the code.  The
validator keeps `weekDays`/`monthDay` whatever the unit is and never
checks integrality, so `{interval: 1, unit: 'day', weekDays: [2.5],
monthDay: 15.5}` validates to a flexible spec with `unit = day` that
still carries `weekDays = [2.5]` (not a whole weekday) and
`monthDay = 15.5`. -/
theorem C6_counterexample :
    ¬ (∀ (x : JSValue) (c : RawRecurrenceConfig),
        validateRecurrence x = .flexible c →
        ((c.unit ≠ .week → c.weekDays = Option.none) ∧
         (c.unit ≠ .month → c.monthDay = Option.none) ∧
         (∀ ws, c.weekDays = some ws → ∀ d ∈ ws, ∃ k : Fin 7, d = ((k : Nat) : ℚ)) ∧
         (∀ md, c.monthDay = some md →
           ∃ k : ℤ, md = (k : ℚ) ∧ 1 ≤ k ∧ k ≤ 31))) := by
  intro hclaim
  have hval : validateRecurrence
      (.obj (some (.num 1)) (some (.str "day"))
        (some (.arr [.num (5 / 2)])) (some (.num (31 / 2)))) =
      .flexible ⟨1, .day, some [5 / 2], some (31 / 2)⟩ := by
    have hf : List.filterMap weekDayFilter [JSValue.num (5 / 2)] = [5 / 2] := by
      simp only [List.filterMap, weekDayFilter]
      rw [if_pos (by norm_num)]
    simp only [validateRecurrence]
    rw [if_neg (by norm_num)]
    rw [if_pos (Or.inl trivial)]
    rw [hf]
    norm_num [setDedup, setDedupAux, List.insertionSort, List.orderedInsert]
  have h := hclaim
    (.obj (some (.num 1)) (some (.str "day"))
      (some (.arr [.num (5 / 2)])) (some (.num (31 / 2))))
    ⟨1, .day, some [5 / 2], some (31 / 2)⟩ hval
  have h1 := h.1 (by decide)
  simp at h1

theorem filterMap_weekDayFilter_map_num {ws : List ℚ}
    (h : ∀ d ∈ ws, 0 ≤ d ∧ d ≤ 6) :
    List.filterMap weekDayFilter (ws.map JSValue.num) = ws := by
  induction ws with
  | nil => rfl
  | cons a l ih =>
    simp only [List.map_cons, List.filterMap_cons]
    rw [show weekDayFilter (JSValue.num a) = some a from by
      simp only [weekDayFilter]
      rw [if_pos (h a (List.mem_cons_self _ _))]]
    rw [ih (fun d hd => h d (List.mem_cons_of_mem _ hd))]

/-- C5: re-validating the (re-serialized) output of the validator gives
the same normalized result. -/
theorem C5_validator_idempotent (x : JSValue) :
    validateRecurrence (serializeRecurrence (validateRecurrence x)) =
      validateRecurrence x := by
  cases hr : validateRecurrence x with
  | none => rfl
  | legacy p => cases p <;> rfl
  | flexible c =>
    obtain ⟨⟨n, hn, hn1, hn99⟩, hws, hmd⟩ := validateRecurrence_normalized hr
    obtain ⟨i, u, wd, md⟩ := c
    dsimp only at hn hws hmd
    subst hn
    have hu_valid : recurrenceUnitName u = "day" ∨ recurrenceUnitName u = "week" ∨
        recurrenceUnitName u = "month" ∨ recurrenceUnitName u = "year" := by
      cases u <;> simp [recurrenceUnitName]
    have hnlt : ¬ ((n : ℚ) < 1) := by
      rw [not_lt]
      exact_mod_cast hn1
    simp only [serializeRecurrence, validateRecurrence]
    rw [if_neg hnlt, if_pos hu_valid]
    rw [RawTaskRecurrence.flexible.injEq, RawRecurrenceConfig.mk.injEq]
    refine ⟨?_, ?_, ?_, ?_⟩
    · rw [Int.floor_intCast]
      have : max 1 (min 99 n) = n := by omega
      rw [this]
    · cases u <;> rfl
    · cases wd with
      | none => rfl
      | some ws =>
        obtain ⟨hne, hrange, hnodup, hsorted⟩ := hws ws rfl
        dsimp only [Option.map]
        have hlen : (ws.map JSValue.num).length > 0 := by
          simp only [List.length_map]
          exact List.length_pos.mpr hne
        rw [if_pos hlen]
        rw [filterMap_weekDayFilter_map_num hrange]
        rw [if_pos (List.length_pos.mpr hne)]
        rw [setDedup_eq_self hnodup, hsorted.insertionSort_eq]
    · cases md with
      | none => rfl
      | some m =>
        obtain ⟨hm1, hm31⟩ := hmd m rfl
        dsimp only [Option.map]
        rw [if_pos ⟨hm1, hm31⟩]

/-- Semantic equivalence of two specs: same human-readable description and
the same next-occurrence result for every clock and deadline. -/
def SemanticallyEq (r1 r2 : TaskRecurrence) : Prop :=
  getRecurrenceDescription r1 = getRecurrenceDescription r2 ∧
  ∀ (today : CalDate) (currentDeadline : Option CalDate),
    calculateNextDeadline today currentDeadline r1 =
      calculateNextDeadline today currentDeadline r2

/-- C4 (amended): the parse/build round trip is semantically the identity
for every spec except a flexible spec carrying `monthDay = 0` (a falsy
value the form builder drops while the calculator honours it). -/
theorem C4_amended_roundtrip (spec : TaskRecurrence)
    (h : ∀ c, spec = .flexible c → c.monthDay ≠ some 0) :
    SemanticallyEq (buildRecurrenceConfig (parseRecurrenceToFormState spec)) spec := by
  cases spec with
  | none => exact ⟨rfl, fun _ _ => rfl⟩
  | legacy p => cases p <;> exact ⟨rfl, fun _ _ => rfl⟩
  | flexible c =>
    obtain ⟨i, un, wd, md⟩ := c
    have hmd := h ⟨i, un, wd, md⟩ rfl
    cases un with
    | day => exact ⟨rfl, fun _ _ => rfl⟩
    | year => exact ⟨rfl, fun _ _ => rfl⟩
    | week =>
      cases wd with
      | none => exact ⟨rfl, fun _ _ => rfl⟩
      | some ws =>
        cases ws with
        | nil => exact ⟨rfl, fun _ _ => rfl⟩
        | cons a l =>
          have hc2 : buildRecurrenceConfig (parseRecurrenceToFormState
              (.flexible ⟨i, .week, some (a :: l), md⟩)) =
              .flexible ⟨i, .week, some (a :: l), Option.none⟩ := by
            simp [parseRecurrenceToFormState, buildRecurrenceConfig]
          rw [hc2]
          exact ⟨rfl, fun _ _ => rfl⟩
    | month =>
      cases md with
      | none => exact ⟨rfl, fun _ _ => rfl⟩
      | some m =>
        have hm : m ≠ 0 := by
          intro h0
          exact hmd (by rw [h0])
        have hc2 : buildRecurrenceConfig (parseRecurrenceToFormState
            (.flexible ⟨i, .month, wd, some m⟩)) =
            .flexible ⟨i, .month, Option.none, some m⟩ := by
          simp [parseRecurrenceToFormState, buildRecurrenceConfig, monthDayTruthy, hm]
        rw [hc2]
        exact ⟨rfl, fun _ _ => rfl⟩

theorem C4_witness :
    SemanticallyEq
      (buildRecurrenceConfig (parseRecurrenceToFormState
        (.flexible ⟨1, .month, Option.none, some 31⟩)))
      (.flexible ⟨1, .month, Option.none, some 31⟩) :=
  C4_amended_roundtrip (.flexible ⟨1, .month, Option.none, some 31⟩)
    (by
      rintro c hc
      injection hc with h2
      rw [← h2]
      decide)

/-- C4 counterexample: for the flexible spec `{interval: 1, unit: month,
monthDay: 0}` the round trip is not semantically the identity — the
rebuilt spec drops `monthDay` (JS `0` is falsy in the builder), while the
original spec makes the calculator run `setDate(0)` and land on the last
day of the previous month.  From base 2024-03-30 the original returns
2024-03-31 and the round-tripped spec returns 2024-04-30. -/
theorem C4_counterexample :
    ¬ (∀ spec : TaskRecurrence,
        SemanticallyEq (buildRecurrenceConfig (parseRecurrenceToFormState spec))
          spec) := by
  intro hclaim
  have h2 := (hclaim (.flexible ⟨1, .month, Option.none, some 0⟩)).2
    ⟨2024, 2, 30⟩ (some ⟨2024, 2, 30⟩)
  have e1 : calculateNextDeadline ⟨2024, 2, 30⟩ (some ⟨2024, 2, 30⟩)
      (buildRecurrenceConfig (parseRecurrenceToFormState
        (.flexible ⟨1, .month, Option.none, some 0⟩))) =
      Except.ok ⟨2024, 3, 30⟩ := by rfl
  have e2 : calculateNextDeadline ⟨2024, 2, 30⟩ (some ⟨2024, 2, 30⟩)
      (.flexible ⟨1, .month, Option.none, some 0⟩) =
      Except.ok ⟨2024, 2, 31⟩ := by rfl
  rw [e1, e2] at h2
  injection h2 with h3
  exact absurd h3 (by decide)
